import Mathlib

/-!
Shallow embedding of the `Diffs` convergence monitor from libDAI's
`include/dai/util.h`.

`Real` is C++ `double` there; the monitor only copies sample values and
compares them with `<` / `>`.  A sample is therefore modelled as
`FVal := Option ℚ`, where `none` plays the role of IEEE NaN: any `<` or `>`
comparison involving NaN is false, and ordinary (finite, non-NaN) doubles
compare like rationals.  Iterators into the inherited `std::vector<Real>`
become indices; `_pos = end()` is the index `hist.length`.  Every buffer
access is checked (`Option`-returning), so an access the C++ code would make
out of bounds shows up as `none`.
-/

/-- A sample value: `some q` is an ordinary (non-NaN) value, `none` is NaN. -/
abbrev FVal := Option ℚ

/-- IEEE `<` on samples: any comparison involving NaN is false.
(`x > y` in the source is `flt y x`.) -/
def flt : FVal → FVal → Bool
  | some a, some b => decide (a < b)
  | _, _ => false

/-- View a list of ordinary (non-NaN) values as a list of samples. -/
def liftQ (l : List ℚ) : List FVal := l.map some

/-- State of `class Diffs : public std::vector<Real>`: `hist` is the contents
of the inherited vector, `maxsize` models `_maxsize : size_t`, `defv` models
`_def`, and `pos`, `maxpos` are the iterators `_pos`, `_maxpos` as indices
(the index `hist.length` is `end()`). -/
structure Diffs where
  maxsize : Nat
  defv : FVal
  hist : List FVal
  pos : Nat
  maxpos : Nat
deriving DecidableEq

/-- The constructor body
`Diffs(long maxsize, Real def) : std::vector<Real>(), _maxsize(maxsize),
_def(def) { this->reserve(_maxsize); _pos = begin(); _maxpos = begin(); }`
after the `long → size_t` conversion of `maxsize` has been done. -/
def Diffs.init (maxsize : Nat) (defv : FVal) : Diffs :=
  { maxsize := maxsize, defv := defv, hist := [], pos := 0, maxpos := 0 }

/-- `Diffs(long maxsize, Real def)`: the `long` argument is converted to the
`size_t` member `_maxsize` (two's-complement wraparound modulo `2^64`). -/
def Diffs.construct (maxsize : Int) (defv : FVal) : Diffs :=
  Diffs.init ((maxsize % (2 ^ 64 : Int)).toNat) defv

/-- The constructor as a fallible operation: its body contains no `throw`,
so it always succeeds.  (The error channel is kept explicit so that claims
about construction failure can be stated.) -/
def Diffs.constructE (maxsize : Int) (defv : FVal) : Except String Diffs :=
  Except.ok (Diffs.construct maxsize defv)

/-- `Real maxDiff() { if (size() < _maxsize) return _def; else return *_maxpos; }`,
given together with the state the call leaves behind (the body performs no
assignment, so the state is returned unchanged).  The dereference `*_maxpos`
is checked: `none` signals an out-of-bounds access. -/
def Diffs.maxDiffM (s : Diffs) : Option (FVal × Diffs) :=
  if s.hist.length < s.maxsize then some (s.defv, s)
  else
    match s.hist.get? s.maxpos with
    | some v => some (v, s)
    | none => none

/-- The value returned by `maxDiff()` (`none` = out-of-bounds access). -/
def Diffs.maxDiff (s : Diffs) : Option FVal :=
  (s.maxDiffM).map Prod.fst

/-- One iteration of `std::max_element`'s loop:
`if (*largest < *it) largest = it;` at position `i`. -/
def maxElemStep (l : List FVal) (best i : Nat) : Nat :=
  if flt (l.getD best none) (l.getD i none) then i else best

/-- `std::max_element(begin(), end()) - begin()`: the index of the first
element that no later element strictly exceeds.  The loop is folded over all
indices `0, 1, …`; the step at index `0` is the identity, so this agrees with
`max_element`'s loop, which starts at `begin() + 1` with `largest = begin()`. -/
def maxElemIdx (l : List FVal) : Nat :=
  (List.range l.length).foldl (maxElemStep l) 0

/-- `void push(Real x)`, returning the new state; `none` signals that the
body performed an out-of-bounds vector access. -/
def Diffs.push (s : Diffs) (x : FVal) : Option Diffs :=
  if s.hist.length < s.maxsize then
    -- push_back(x); _pos = end();
    let hist := s.hist ++ [x]
    if hist.length > 1 then
      -- if (*_maxpos < back()) { _maxpos = end(); _maxpos--; }
      match hist.get? s.maxpos with
      | some mv =>
          let maxpos := if flt mv x then hist.length - 1 else s.maxpos
          some { s with hist := hist, pos := hist.length, maxpos := maxpos }
      | none => none
    else
      -- _maxpos = begin();
      some { s with hist := hist, pos := hist.length, maxpos := 0 }
  else
    -- if (_pos == end()) _pos = begin();
    let pos := if s.pos = s.hist.length then 0 else s.pos
    if s.maxpos = pos then
      -- *_pos++ = x; _maxpos = max_element(begin(), end());
      if pos < s.hist.length then
        let hist := s.hist.set pos x
        some { s with hist := hist, pos := pos + 1, maxpos := maxElemIdx hist }
      else none
    else
      -- if (x > *_maxpos) _maxpos = _pos; *_pos++ = x;
      match s.hist.get? s.maxpos with
      | some mv =>
          let maxpos := if flt mv x then pos else s.maxpos
          if pos < s.hist.length then
            some { s with hist := s.hist.set pos x, pos := pos + 1, maxpos := maxpos }
          else none
      | none => none

/-- `size_t maxSize() { return _maxsize; }` -/
def Diffs.maxSize (s : Diffs) : Nat := s.maxsize

/-- Push a whole list of samples, left to right. -/
def Diffs.pushAll (s : Diffs) (l : List FVal) : Option Diffs :=
  l.foldlM Diffs.push s

/-- Push samples one at a time, recording the value `maxDiff()` returns
after each push. -/
def Diffs.pushTrace (s : Diffs) : List FVal → Option (List FVal)
  | [] => some []
  | x :: xs => do
      let s' ← s.push x
      let v ← s'.maxDiff
      let rest ← s'.pushTrace xs
      pure (v :: rest)

/-- `q` is the maximum of the list `l` of ordinary values. -/
def isMaxOf (q : ℚ) (l : List ℚ) : Prop := q ∈ l ∧ ∀ v ∈ l, v ≤ q

/-- Position `i` holds the maximum of `l`, and it is the earliest position
doing so: every strictly earlier position holds a strictly smaller value
(so a later equal value has not moved the cursor). -/
def leastMaxAt (l : List ℚ) (i : Nat) : Prop :=
  ∃ q, l.get? i = some q ∧ (∀ v ∈ l, v ≤ q) ∧
    (∀ j, j < i → ∀ p, l.get? j = some p → p < q)

/-! ### Basic facts about the sample order `flt` -/

theorem flt_none_right (x : FVal) : flt x none = false := by
  cases x <;> rfl

theorem flt_none_left (x : FVal) : flt none x = false := by
  cases x <;> rfl

theorem flt_some_some (a b : ℚ) : flt (some a) (some b) = decide (a < b) := rfl

theorem flt_eq_true (u w : FVal) (h : flt u w = true) :
    ∃ a b, u = some a ∧ w = some b ∧ a < b := by
  cases u with
  | none => simp [flt_none_left] at h
  | some a =>
    cases w with
    | none => simp [flt_none_right] at h
    | some b =>
      refine ⟨a, b, rfl, rfl, ?_⟩
      simpa [flt_some_some] using h

theorem flt_some_false (a b : ℚ) (h : flt (some a) (some b) = false) : b ≤ a := by
  rw [flt_some_some] at h
  exact le_of_not_lt (by simpa using h)

theorem flt_false_of_le (a b : ℚ) (h : b ≤ a) : flt (some a) (some b) = false := by
  rw [flt_some_some]
  simpa using not_lt_of_le h

/-! ### Facts about `liftQ` -/

theorem liftQ_length (l : List ℚ) : (liftQ l).length = l.length := by
  simp [liftQ]

theorem liftQ_get? (l : List ℚ) (j : Nat) :
    (liftQ l).get? j = (l.get? j).map some := by
  simp [liftQ, List.get?_map]

theorem liftQ_append (l r : List ℚ) : liftQ (l ++ r) = liftQ l ++ liftQ r := by
  simp [liftQ]

theorem liftQ_cons (x : ℚ) (l : List ℚ) : liftQ (x :: l) = some x :: liftQ l := rfl

theorem liftQ_nil : liftQ [] = [] := rfl

theorem liftQ_set (l : List ℚ) (j : Nat) (x : ℚ) :
    (liftQ l).set j (some x) = liftQ (l.set j x) := by
  simp only [liftQ]
  exact List.map_set.symm

theorem liftQ_getD (l : List ℚ) (j : Nat) :
    (liftQ l).getD j none = l.get? j := by
  rw [List.getD_eq_get?, liftQ_get?]
  cases l.get? j <;> rfl

theorem liftQ_ne_nil (l : List ℚ) (h : l ≠ []) : liftQ l ≠ [] := by
  cases l with
  | nil => exact absurd rfl h
  | cons a t => simp [liftQ]

/-! ### The `max_element` scan -/

theorem maxElem_aux (v : List FVal) (hv : 0 < v.length) (k : Nat) (hk : k ≤ v.length) :
    ((List.range k).foldl (maxElemStep v) 0 < v.length) ∧
    (∀ j, j < k →
      flt (v.getD ((List.range k).foldl (maxElemStep v) 0) none) (v.getD j none) = false) ∧
    (v.getD ((List.range k).foldl (maxElemStep v) 0) none = none →
      (List.range k).foldl (maxElemStep v) 0 = 0) := by
  induction k with
  | zero =>
    refine ⟨hv, ?_, ?_⟩
    · intro j hj; omega
    · intro _; rfl
  | succ k ih =>
    have hk' : k ≤ v.length := Nat.le_of_succ_le hk
    obtain ⟨ihb, ihf, ihz⟩ := ih hk'
    set b := (List.range k).foldl (maxElemStep v) 0 with hb
    have hstep : (List.range (k + 1)).foldl (maxElemStep v) 0 = maxElemStep v b k := by
      rw [List.range_succ, List.foldl_append, ← hb]
      rfl
    rw [hstep]
    unfold maxElemStep
    by_cases hc : flt (v.getD b none) (v.getD k none) = true
    · rw [if_pos hc]
      obtain ⟨qb, qk, hqb, hqk, hlt⟩ := flt_eq_true _ _ hc
      refine ⟨by omega, ?_, ?_⟩
      · intro j hj
        rcases Nat.lt_succ_iff_lt_or_eq.mp hj with hjk | rfl
        · have hf := ihf j hjk
          rw [hqb] at hf
          rw [hqk]
          cases hgj : v.getD j none with
          | none => exact flt_none_right _
          | some qj =>
            rw [hgj] at hf
            have : qj ≤ qb := flt_some_false _ _ hf
            exact flt_false_of_le _ _ (le_of_lt (lt_of_le_of_lt this hlt))
        · rw [hqk]
          exact flt_false_of_le _ _ le_rfl
      · intro hnone
        rw [hqk] at hnone
        exact absurd hnone (by simp)
    · rw [if_neg hc]
      rw [Bool.not_eq_true] at hc
      refine ⟨ihb, ?_, ihz⟩
      intro j hj
      rcases Nat.lt_succ_iff_lt_or_eq.mp hj with hjk | rfl
      · exact ihf j hjk
      · exact hc

theorem maxElemIdx_spec (v : List FVal) (hv : v ≠ []) :
    maxElemIdx v < v.length ∧
    (∀ j, j < v.length → flt (v.getD (maxElemIdx v) none) (v.getD j none) = false) ∧
    (v.getD (maxElemIdx v) none = none → maxElemIdx v = 0) := by
  have hlen : 0 < v.length := List.length_pos.mpr hv
  exact maxElem_aux v hlen v.length le_rfl

theorem maxElemIdx_liftQ (c : List ℚ) (hc : c ≠ []) :
    ∃ q, c.get? (maxElemIdx (liftQ c)) = some q ∧ isMaxOf q c := by
  obtain ⟨hb, hf, -⟩ := maxElemIdx_spec (liftQ c) (liftQ_ne_nil c hc)
  rw [liftQ_length] at hb
  refine ⟨c.get ⟨maxElemIdx (liftQ c), hb⟩, by rw [List.get?_eq_get hb], ?_, ?_⟩
  · exact List.get_mem _ _ _
  · intro w hw
    obtain ⟨j, hj⟩ := List.mem_iff_get?.mp hw
    have hjlt : j < c.length := by
      by_contra hge
      rw [List.get?_len_le (Nat.le_of_not_lt hge)] at hj
      exact Option.noConfusion hj
    have := hf j (by rwa [liftQ_length])
    rw [liftQ_getD, liftQ_getD, hj, List.get?_eq_get hb] at this
    exact flt_some_false _ _ this

/-! ### Equations for `push`, `maxDiff`, `pushAll` -/

theorem Diffs.push_fill_nil (s : Diffs) (x : FVal)
    (h0 : s.hist = []) (hm : 0 < s.maxsize) :
    s.push x = some { s with hist := [x], pos := 1, maxpos := 0 } := by
  unfold Diffs.push
  rw [h0]
  rw [if_pos (by simpa using hm)]
  rfl

theorem Diffs.push_fill (s : Diffs) (x : FVal) (mv : FVal)
    (hlt : s.hist.length < s.maxsize) (hne : s.hist ≠ [])
    (hmv : (s.hist ++ [x]).get? s.maxpos = some mv) :
    s.push x = some { s with hist := s.hist ++ [x], pos := s.hist.length + 1,
                             maxpos := if flt mv x then s.hist.length else s.maxpos } := by
  have hlen : 0 < s.hist.length := List.length_pos.mpr hne
  unfold Diffs.push
  rw [if_pos hlt]
  simp only [List.length_append, List.length_cons, List.length_nil]
  rw [if_pos (by omega : s.hist.length + (0 + 1) > 1), hmv]
  have : s.hist.length + (0 + 1) - 1 = s.hist.length := by omega
  rw [this]

theorem Diffs.push_full_rescan (s : Diffs) (x : FVal) (pos0 : Nat)
    (hfull : ¬ s.hist.length < s.maxsize)
    (hpos0 : (if s.pos = s.hist.length then 0 else s.pos) = pos0)
    (heq : s.maxpos = pos0) (hlt : pos0 < s.hist.length) :
    s.push x = some { s with hist := s.hist.set pos0 x, pos := pos0 + 1,
                             maxpos := maxElemIdx (s.hist.set pos0 x) } := by
  unfold Diffs.push
  rw [if_neg hfull]
  simp only [hpos0]
  rw [if_pos heq, if_pos hlt]

theorem Diffs.push_full_keep (s : Diffs) (x : FVal) (pos0 : Nat) (mv : FVal)
    (hfull : ¬ s.hist.length < s.maxsize)
    (hpos0 : (if s.pos = s.hist.length then 0 else s.pos) = pos0)
    (hne : s.maxpos ≠ pos0) (hmv : s.hist.get? s.maxpos = some mv)
    (hlt : pos0 < s.hist.length) :
    s.push x = some { s with hist := s.hist.set pos0 x, pos := pos0 + 1,
                             maxpos := if flt mv x then pos0 else s.maxpos } := by
  unfold Diffs.push
  rw [if_neg hfull]
  simp only [hpos0]
  rw [if_neg hne, hmv]
  simp only [if_pos hlt]

theorem Diffs.maxDiff_fill (s : Diffs) (h : s.hist.length < s.maxsize) :
    s.maxDiff = some s.defv := by
  unfold Diffs.maxDiff Diffs.maxDiffM
  rw [if_pos h]
  rfl

theorem Diffs.maxDiff_full (s : Diffs) (v : FVal)
    (h : ¬ s.hist.length < s.maxsize) (hmv : s.hist.get? s.maxpos = some v) :
    s.maxDiff = some v := by
  unfold Diffs.maxDiff Diffs.maxDiffM
  rw [if_neg h, hmv]
  rfl

theorem Diffs.pushAll_nil (s : Diffs) : s.pushAll [] = some s := rfl

theorem Diffs.pushAll_append (s : Diffs) (l₁ l₂ : List FVal) :
    s.pushAll (l₁ ++ l₂) = (s.pushAll l₁) >>= (fun t => t.pushAll l₂) := by
  unfold Diffs.pushAll
  rw [List.foldlM_append]

theorem Diffs.pushAll_one (s : Diffs) (x : FVal) : s.pushAll [x] = s.push x := by
  unfold Diffs.pushAll
  simp

/-! ### Safety invariant: states reachable with `capacity ≥ 1` -/

/-- Invariant of every state reachable from a monitor constructed with
capacity `m`: the history never exceeds the capacity, the write iterator
stays in `[0, end]`, the max iterator sits on a real slot once the history
is nonempty, and the max iterator can only sit on a NaN sample if that NaN
occupies slot `0`. -/
def SInv (m : Nat) (s : Diffs) : Prop :=
  s.maxsize = m ∧ s.hist.length ≤ m ∧
  (s.hist.length < m → s.pos = s.hist.length) ∧
  (s.hist.length = m → 1 ≤ s.pos ∧ s.pos ≤ m) ∧
  (s.hist = [] → s.maxpos = 0) ∧
  (s.hist ≠ [] → s.maxpos < s.hist.length) ∧
  (s.hist.get? s.maxpos = some none → s.maxpos = 0)

theorem SInv_init (m : Nat) (hm : 1 ≤ m) (d : FVal) : SInv m (Diffs.init m d) := by
  unfold SInv Diffs.init
  refine ⟨rfl, by simp, by simp, by simp; omega, by simp, by simp, by simp⟩

theorem SInv_push_full_aux (m : Nat) (hm : 1 ≤ m) (s : Diffs) (x : FVal) (pos0 : Nat)
    (hms : s.maxsize = m) (hlenm : s.hist.length = m)
    (hpos0 : (if s.pos = s.hist.length then 0 else s.pos) = pos0)
    (hpos0lt : pos0 < s.hist.length)
    (hmplt : s.hist ≠ [] → s.maxpos < s.hist.length)
    (hnan : s.hist.get? s.maxpos = some none → s.maxpos = 0) :
    ∃ s', s.push x = some s' ∧ SInv m s' := by
  have hfull' : ¬ s.hist.length < s.maxsize := by omega
  have hsetlen : (s.hist.set pos0 x).length = m := by
    rw [List.length_set]
    exact hlenm
  have hsetne : s.hist.set pos0 x ≠ [] := by
    intro h0
    have h1 := congrArg List.length h0
    rw [List.length_set] at h1
    simp only [List.length_nil] at h1
    omega
  have hne : s.hist ≠ [] := by
    intro h0
    rw [h0] at hlenm
    simp at hlenm
    omega
  have hmpl : s.maxpos < s.hist.length := hmplt hne
  by_cases heq : s.maxpos = pos0
  · obtain ⟨hb, -, hz⟩ := maxElemIdx_spec (s.hist.set pos0 x) hsetne
    rw [List.length_set] at hb
    refine ⟨_, s.push_full_rescan x pos0 hfull' hpos0 heq hpos0lt, ?_⟩
    unfold SInv
    dsimp only
    simp only [List.length_set]
    refine ⟨hms, le_of_eq hlenm, ?_, ?_, ?_, ?_, ?_⟩
    · intro h
      omega
    · intro _
      omega
    · intro h0
      exact absurd h0 hsetne
    · intro _
      exact hb
    · intro hval
      apply hz
      rw [List.getD_eq_get?, hval]
      rfl
  · have hmv : s.hist.get? s.maxpos = some (s.hist.get ⟨s.maxpos, hmpl⟩) :=
      List.get?_eq_get hmpl
    refine ⟨_, s.push_full_keep x pos0 (s.hist.get ⟨s.maxpos, hmpl⟩)
      hfull' hpos0 heq hmv hpos0lt, ?_⟩
    unfold SInv
    dsimp only
    simp only [List.length_set]
    refine ⟨hms, le_of_eq hlenm, ?_, ?_, ?_, ?_, ?_⟩
    · intro h
      omega
    · intro _
      omega
    · intro h0
      exact absurd h0 hsetne
    · intro _
      split <;> omega
    · show (s.hist.set pos0 x).get?
        (if flt (s.hist.get ⟨s.maxpos, hmpl⟩) x = true then pos0 else s.maxpos) = some none →
        (if flt (s.hist.get ⟨s.maxpos, hmpl⟩) x = true then pos0 else s.maxpos) = 0
      by_cases hflt : flt (s.hist.get ⟨s.maxpos, hmpl⟩) x = true
      · rw [if_pos hflt]
        intro hval
        rw [List.get?_set_eq_of_lt x hpos0lt] at hval
        obtain ⟨a, b, -, hw, -⟩ := flt_eq_true _ _ hflt
        rw [hw] at hval
        exact absurd (Option.some.inj hval) (by simp)
      · rw [if_neg hflt]
        intro hval
        rw [List.get?_set_ne x _ (by omega)] at hval
        exact hnan hval

theorem SInv_push (m : Nat) (hm : 1 ≤ m) (s : Diffs) (x : FVal) (h : SInv m s) :
    ∃ s', s.push x = some s' ∧ SInv m s' := by
  obtain ⟨hms, hlen, hfp, hfullp, hmp0, hmplt, hnan⟩ := h
  by_cases hfill : s.hist.length < m
  · by_cases hnil : s.hist = []
    · refine ⟨_, s.push_fill_nil x hnil (by omega), ?_⟩
      unfold SInv
      dsimp only
      refine ⟨hms, by simpa using hm, by simp, ?_, by simp, by simp, ?_⟩
      · intro h1
        simp at h1
        omega
      · intro _
        rfl
    · have hmpl : s.maxpos < s.hist.length := hmplt hnil
      have hget : (s.hist ++ [x]).get? s.maxpos = s.hist.get? s.maxpos :=
        List.get?_append hmpl
      have hmv : s.hist.get? s.maxpos = some (s.hist.get ⟨s.maxpos, hmpl⟩) :=
        List.get?_eq_get hmpl
      refine ⟨_, s.push_fill x (s.hist.get ⟨s.maxpos, hmpl⟩) (by omega) hnil
        (by rw [hget, hmv]), ?_⟩
      have hlapp : (s.hist ++ [x]).length = s.hist.length + 1 := by simp
      unfold SInv
      dsimp only
      refine ⟨hms, by omega, by intro _; omega, by intro _; omega,
        by intro h0; exact absurd h0 (by simp), ?_, ?_⟩
      · intro _
        split <;> omega
      · show (s.hist ++ [x]).get?
          (if flt (s.hist.get ⟨s.maxpos, hmpl⟩) x = true then s.hist.length else s.maxpos) =
          some none →
          (if flt (s.hist.get ⟨s.maxpos, hmpl⟩) x = true then s.hist.length else s.maxpos) = 0
        by_cases hflt : flt (s.hist.get ⟨s.maxpos, hmpl⟩) x = true
        · rw [if_pos hflt]
          intro hval
          rw [List.get?_concat_length] at hval
          obtain ⟨a, b, -, hw, -⟩ := flt_eq_true _ _ hflt
          rw [hw] at hval
          exact absurd (Option.some.inj hval) (by simp)
        · rw [if_neg hflt]
          intro hval
          rw [hget] at hval
          exact hnan hval
  · have hlenm : s.hist.length = m := le_antisymm hlen (Nat.le_of_not_lt hfill)
    obtain ⟨hp1, hpm⟩ := hfullp hlenm
    refine SInv_push_full_aux m hm s x _ hms hlenm rfl ?_ hmplt hnan
    by_cases hc : s.pos = s.hist.length
    · rw [if_pos hc]
      omega
    · rw [if_neg hc]
      omega

theorem SInv_run (m : Nat) (hm : 1 ≤ m) (d : FVal) (l : List FVal) :
    ∃ s, (Diffs.init m d).pushAll l = some s ∧ SInv m s := by
  induction l using List.reverseRecOn with
  | nil => exact ⟨_, Diffs.pushAll_nil _, SInv_init m hm d⟩
  | append_singleton l x ih =>
    obtain ⟨s, hs, hinv⟩ := ih
    obtain ⟨s', hp, hinv'⟩ := SInv_push m hm s x hinv
    refine ⟨s', ?_, hinv'⟩
    rw [Diffs.pushAll_append, hs]
    simpa [Diffs.pushAll_one] using hp

theorem SInv_maxDiff (m : Nat) (hm : 1 ≤ m) (s : Diffs) (h : SInv m s) :
    ∃ v, s.maxDiff = some v := by
  obtain ⟨hms, hlen, -, -, -, hmplt, -⟩ := h
  by_cases hfill : s.hist.length < s.maxsize
  · exact ⟨s.defv, s.maxDiff_fill hfill⟩
  · have hne : s.hist ≠ [] := by
      intro h0
      rw [h0] at hfill
      simp at hfill
      omega
    have hmpl : s.maxpos < s.hist.length := hmplt hne
    exact ⟨_, s.maxDiff_full _ hfill (List.get?_eq_get hmpl)⟩

/-! ### Functional invariant for non-NaN runs -/

/-- The window of the last `m` pushed values. -/
def window (l : List ℚ) (m : Nat) : List ℚ := l.drop (l.length - m)

/-- Full-regime state description: the window splits as `a ++ b` with `a`
the part still ahead of the write iterator; the circular buffer holds
`b ++ a`, the write iterator encodes `b.length` (as `m` when `b = []`,
since `_pos` is only wrapped at the start of the next `push`), and the max
iterator sits on a maximum of the buffer. -/
def FullSt (m : Nat) (l : List ℚ) (s : Diffs) : Prop :=
  ∃ a b : List ℚ,
    a ≠ [] ∧ window l m = a ++ b ∧
    s.hist = liftQ (b ++ a) ∧
    s.pos = (if b.length = 0 then m else b.length) ∧
    ∃ q, (b ++ a).get? s.maxpos = some q ∧ isMaxOf q (b ++ a)

/-- State invariant after pushing the non-NaN samples `l`, in order, into a
freshly constructed monitor of capacity `m` and default `d`. -/
def DInv (m : Nat) (d : FVal) (l : List ℚ) (s : Diffs) : Prop :=
  s.maxsize = m ∧ s.defv = d ∧
  (l.length < m →
    s.hist = liftQ l ∧ s.pos = l.length ∧
    (l = [] → s.maxpos = 0) ∧ (l ≠ [] → leastMaxAt l s.maxpos)) ∧
  (m ≤ l.length → FullSt m l s)

theorem set_append_len {α : Type} (u : List α) (y : α) (t : List α) (z : α) :
    (u ++ y :: t).set u.length z = u ++ z :: t := by
  induction u with
  | nil => rfl
  | cons a u ih =>
    simp only [List.cons_append, List.length_cons, List.set_cons_succ]
    rw [ih]

theorem DInv_init (m : Nat) (_hm : 1 ≤ m) (d : FVal) : DInv m d [] (Diffs.init m d) := by
  refine ⟨rfl, rfl, ?_, ?_⟩
  · intro _
    exact ⟨rfl, rfl, fun _ => rfl, fun h => absurd rfl h⟩
  · intro h
    simp at h
    omega

theorem DInv_of_fill (m : Nat) (hm : 1 ≤ m) (d : FVal) (l' : List ℚ) (s' : Diffs)
    (hms : s'.maxsize = m) (hdv : s'.defv = d)
    (hlen : l'.length ≤ m) (hne : l' ≠ [])
    (hhist : s'.hist = liftQ l') (hpos : s'.pos = l'.length)
    (hlm : leastMaxAt l' s'.maxpos) :
    DInv m d l' s' := by
  refine ⟨hms, hdv, ?_, ?_⟩
  · intro _
    exact ⟨hhist, hpos, fun h0 => absurd h0 hne, fun _ => hlm⟩
  · intro hge
    have hleneq : l'.length = m := le_antisymm hlen hge
    refine ⟨l', [], hne, ?_, ?_, ?_, ?_⟩
    · unfold window
      rw [hleneq]
      simp
    · rw [hhist]
      simp
    · rw [hpos, hleneq]
      simp
    · obtain ⟨q, hq, hub, -⟩ := hlm
      refine ⟨q, by simpa using hq, List.get?_mem (by simpa using hq), ?_⟩
      intro v hv
      exact hub v (by simpa using hv)

theorem FullSt_mk (m : Nat) (l' : List ℚ) (s' : Diffs) (b ta : List ℚ) (x : ℚ)
    (hab : ta.length + 1 + b.length = m)
    (hwin : window l' m = (ta ++ b) ++ [x])
    (hhist : s'.hist = liftQ (b ++ x :: ta))
    (hpos : s'.pos = b.length + 1)
    (hmax : ∃ q, (b ++ x :: ta).get? s'.maxpos = some q ∧ isMaxOf q (b ++ x :: ta)) :
    FullSt m l' s' := by
  by_cases hta : ta = []
  · subst hta
    refine ⟨b ++ [x], [], by simp, ?_, ?_, ?_, ?_⟩
    · rw [hwin]
      simp
    · rw [hhist]
      simp
    · rw [hpos]
      rw [if_pos (by simp : ([] : List ℚ).length = 0)]
      simp only [List.length_cons, List.length_nil] at hab
      omega
    · simpa using hmax
  · refine ⟨ta, b ++ [x], hta, ?_, ?_, ?_, ?_⟩
    · rw [hwin, List.append_assoc]
    · rw [hhist]
      congr 1
      simp
    · rw [hpos]
      rw [if_neg (by simp)]
      simp
    · have he : (b ++ [x]) ++ ta = b ++ x :: ta := by simp
      rw [he]
      exact hmax

theorem DInv_push (m : Nat) (hm : 1 ≤ m) (d : FVal) (l : List ℚ) (x : ℚ) (s : Diffs)
    (h : DInv m d l s) :
    ∃ s', s.push (some x) = some s' ∧ DInv m d (l ++ [x]) s' ∧
      (m ≤ l.length → s'.hist = s.hist.set (s.pos % m) (some x) ∧
        s'.pos = s.pos % m + 1) := by
  obtain ⟨hms, hdv, hfillc, hfullc⟩ := h
  by_cases hfill : l.length < m
  · obtain ⟨hhist, hpos, hmp0, hmplst⟩ := hfillc hfill
    by_cases hnil : l = []
    · subst hnil
      have hh0 : s.hist = [] := hhist
      refine ⟨_, s.push_fill_nil (some x) hh0 (by omega), ?_, ?_⟩
      · refine DInv_of_fill m hm d [x] _ hms hdv (by simpa using hm) (by simp) rfl rfl ?_
        exact ⟨x, rfl, by simp, fun j hj p _ => absurd hj (Nat.not_lt_zero j)⟩
      · intro hge
        simp at hge
        omega
    · obtain ⟨q, hq, hub, hstrict⟩ := hmplst hnil
      obtain ⟨hmplt, -⟩ := List.get?_eq_some.mp hq
      have hlenh : s.hist.length = l.length := by rw [hhist, liftQ_length]
      have hmv : (s.hist ++ [some x]).get? s.maxpos = some (some q) := by
        rw [List.get?_append (show s.maxpos < s.hist.length by rw [hlenh]; exact hmplt)]
        rw [hhist, liftQ_get?, hq]
        rfl
      refine ⟨_, s.push_fill (some x) (some q) (by omega)
        (by rw [hhist]; exact liftQ_ne_nil l hnil) hmv, ?_, ?_⟩
      · by_cases hqx : q < x
        · have hflt : flt (some q) (some x) = true := by
            rw [flt_some_some]
            exact decide_eq_true hqx
          refine DInv_of_fill m hm d (l ++ [x]) _ hms hdv (by simp; omega) (by simp)
            ?_ ?_ ?_
          · show s.hist ++ [some x] = liftQ (l ++ [x])
            rw [hhist, liftQ_append]
            rfl
          · show s.hist.length + 1 = (l ++ [x]).length
            rw [hlenh]
            simp
          · show leastMaxAt (l ++ [x])
              (if flt (some q) (some x) = true then s.hist.length else s.maxpos)
            rw [if_pos hflt, hlenh]
            refine ⟨x, List.get?_concat_length l x, ?_, ?_⟩
            · intro v hv
              rcases List.mem_append.mp hv with hvl | hvx
              · exact le_of_lt (lt_of_le_of_lt (hub v hvl) hqx)
              · rw [List.mem_singleton.mp hvx]
            · intro j hj p hp
              rw [List.get?_append hj] at hp
              exact lt_of_le_of_lt (hub p (List.get?_mem hp)) hqx
        · have hflt : flt (some q) (some x) = false := by
            rw [flt_some_some]
            exact decide_eq_false hqx
          have hxq : x ≤ q := le_of_not_lt hqx
          refine DInv_of_fill m hm d (l ++ [x]) _ hms hdv (by simp; omega) (by simp)
            ?_ ?_ ?_
          · show s.hist ++ [some x] = liftQ (l ++ [x])
            rw [hhist, liftQ_append]
            rfl
          · show s.hist.length + 1 = (l ++ [x]).length
            rw [hlenh]
            simp
          · show leastMaxAt (l ++ [x])
              (if flt (some q) (some x) = true then s.hist.length else s.maxpos)
            rw [if_neg (by simp [hflt])]
            refine ⟨q, ?_, ?_, ?_⟩
            · rw [List.get?_append hmplt]
              exact hq
            · intro v hv
              rcases List.mem_append.mp hv with hvl | hvx
              · exact hub v hvl
              · rw [List.mem_singleton.mp hvx]
                exact hxq
            · intro j hj p hp
              rw [List.get?_append (lt_trans hj hmplt)] at hp
              exact hstrict j hj p hp
      · intro hge
        omega
  · have hge : m ≤ l.length := Nat.le_of_not_lt hfill
    obtain ⟨a, b, ha, hwin, hhist, hpos, q, hq, hqmem, hqub⟩ := hfullc hge
    obtain ⟨ha', ta, rfl⟩ := List.exists_cons_of_ne_nil ha
    have hwl : (window l m).length = m := by
      unfold window
      rw [List.length_drop]
      omega
    have hab : ta.length + 1 + b.length = m := by
      rw [hwin] at hwl
      simp only [List.length_append, List.length_cons] at hwl
      omega
    have hblt : b.length < m := by omega
    have hlenh : s.hist.length = m := by
      rw [hhist, liftQ_length, List.length_append, List.length_cons]
      omega
    have hfull' : ¬ s.hist.length < s.maxsize := by omega
    have hpos0 : (if s.pos = s.hist.length then 0 else s.pos) = b.length := by
      rw [hpos, hlenh]
      by_cases hb0 : b.length = 0
      · rw [if_pos hb0, if_pos rfl]
        omega
      · rw [if_neg hb0, if_neg (by omega)]
    have hpos0lt : b.length < s.hist.length := by omega
    have hposmod : s.pos % m = b.length := by
      rw [hpos]
      by_cases hb0 : b.length = 0
      · rw [if_pos hb0, Nat.mod_self]
        omega
      · rw [if_neg hb0, Nat.mod_eq_of_lt hblt]
    have hcset : (b ++ ha' :: ta).set b.length x = b ++ x :: ta := set_append_len b ha' ta x
    have hhist_set : s.hist.set b.length (some x) = liftQ (b ++ x :: ta) := by
      rw [hhist, liftQ_set, hcset]
    have hcne : b ++ x :: ta ≠ [] := by simp
    have hlx : (l ++ [x]).length = l.length + 1 := by simp
    have hwin' : window (l ++ [x]) m = (ta ++ b) ++ [x] := by
      unfold window
      rw [hlx]
      rw [List.drop_append_of_le_length (by omega)]
      congr 1
      rw [show l.length + 1 - m = (l.length - m) + 1 from by omega]
      rw [← List.drop_drop]
      rw [show l.drop (l.length - m) = window l m from rfl, hwin]
      simp
    by_cases heq : s.maxpos = b.length
    · refine ⟨_, s.push_full_rescan (some x) b.length hfull' hpos0 heq hpos0lt, ?_, ?_⟩
      · refine ⟨hms, hdv, ?_, ?_⟩
        · intro hlt
          rw [hlx] at hlt
          omega
        · intro _
          refine FullSt_mk m (l ++ [x]) _ b ta x hab hwin' hhist_set rfl ?_
          show ∃ q', (b ++ x :: ta).get? (maxElemIdx (s.hist.set b.length (some x))) =
            some q' ∧ isMaxOf q' (b ++ x :: ta)
          rw [hhist_set]
          exact maxElemIdx_liftQ (b ++ x :: ta) hcne
      · intro _
        rw [hposmod]
        exact ⟨rfl, rfl⟩
    · have hmvq : s.hist.get? s.maxpos = some (some q) := by
        rw [hhist, liftQ_get?, hq]
        rfl
      refine ⟨_, s.push_full_keep (some x) b.length (some q) hfull' hpos0 heq hmvq
        hpos0lt, ?_, ?_⟩
      · refine ⟨hms, hdv, ?_, ?_⟩
        · intro hlt
          rw [hlx] at hlt
          omega
        · intro _
          refine FullSt_mk m (l ++ [x]) _ b ta x hab hwin' hhist_set rfl ?_
          by_cases hqx : q < x
          · have hflt : flt (some q) (some x) = true := by
              rw [flt_some_some]
              exact decide_eq_true hqx
            show ∃ q', (b ++ x :: ta).get?
              (if flt (some q) (some x) = true then b.length else s.maxpos) = some q' ∧
              isMaxOf q' (b ++ x :: ta)
            rw [if_pos hflt]
            refine ⟨x, ?_, by simp, ?_⟩
            · rw [List.get?_append_right (le_refl b.length), Nat.sub_self]
              rfl
            · intro v hv
              rcases List.mem_append.mp hv with hvb | hvx
              · exact le_of_lt (lt_of_le_of_lt (hqub v (List.mem_append_left _ hvb)) hqx)
              · rcases List.mem_cons.mp hvx with hvx' | hvta
                · exact le_of_eq hvx'
                · exact le_of_lt (lt_of_le_of_lt
                    (hqub v (List.mem_append_right _ (List.mem_cons_of_mem _ hvta))) hqx)
          · have hflt : flt (some q) (some x) = false := by
              rw [flt_some_some]
              exact decide_eq_false hqx
            have hxq : x ≤ q := le_of_not_lt hqx
            show ∃ q', (b ++ x :: ta).get?
              (if flt (some q) (some x) = true then b.length else s.maxpos) = some q' ∧
              isMaxOf q' (b ++ x :: ta)
            rw [if_neg (by simp [hflt])]
            have hget' : (b ++ x :: ta).get? s.maxpos = some q := by
              rw [← hcset, List.get?_set_ne x _ (fun hh => heq hh.symm)]
              exact hq
            refine ⟨q, hget', List.get?_mem hget', ?_⟩
            intro v hv
            rw [← hcset] at hv
            rcases List.mem_or_eq_of_mem_set hv with hvc | hvx'
            · exact hqub v hvc
            · exact (le_of_eq hvx').trans hxq
      · intro _
        rw [hposmod]
        exact ⟨rfl, rfl⟩

theorem DInv_run (m : Nat) (hm : 1 ≤ m) (d : FVal) (l : List ℚ) :
    ∃ s, (Diffs.init m d).pushAll (liftQ l) = some s ∧ DInv m d l s := by
  induction l using List.reverseRecOn with
  | nil => exact ⟨_, Diffs.pushAll_nil _, DInv_init m hm d⟩
  | append_singleton l x ih =>
    obtain ⟨s, hs, hinv⟩ := ih
    obtain ⟨s', hp, hinv', -⟩ := DInv_push m hm d l x s hinv
    refine ⟨s', ?_, hinv'⟩
    rw [liftQ_append, Diffs.pushAll_append, hs]
    simpa [Diffs.pushAll_one, liftQ] using hp

/-! ### Extraction helpers for the full regime -/

theorem FullSt_maxDiff (m : Nat) (l : List ℚ) (s : Diffs) (hms : s.maxsize = m)
    (hf : FullSt m l s) (hml : m ≤ l.length) :
    ∃ q, s.maxDiff = some (some q) ∧ isMaxOf q (window l m) := by
  obtain ⟨a, b, ha, hwin, hhist, hpos, q, hq, hqmem, hqub⟩ := hf
  have hwl : (window l m).length = m := by
    unfold window
    rw [List.length_drop]
    omega
  have hab : a.length + b.length = m := by
    rw [hwin, List.length_append] at hwl
    omega
  have hlenh : s.hist.length = m := by
    rw [hhist, liftQ_length, List.length_append]
    omega
  have hget : s.hist.get? s.maxpos = some (some q) := by
    rw [hhist, liftQ_get?, hq]
    rfl
  refine ⟨q, s.maxDiff_full (some q) (by omega) hget, ?_, ?_⟩
  · rw [hwin]
    rcases List.mem_append.mp hqmem with h1 | h1
    · exact List.mem_append_right a h1
    · exact List.mem_append_left b h1
  · intro v hv
    rw [hwin] at hv
    apply hqub
    rcases List.mem_append.mp hv with h1 | h1
    · exact List.mem_append_right b h1
    · exact List.mem_append_left a h1

theorem FullSt_maxpoint (m : Nat) (l : List ℚ) (s : Diffs)
    (hf : FullSt m l s) (hml : m ≤ l.length) :
    s.hist.length = m ∧
    ∃ q, s.hist.get? s.maxpos = some (some q) ∧
      ∀ j, j < m → ∃ p, s.hist.get? j = some (some p) ∧ p ≤ q := by
  obtain ⟨a, b, ha, hwin, hhist, hpos, q, hq, hqmem, hqub⟩ := hf
  have hwl : (window l m).length = m := by
    unfold window
    rw [List.length_drop]
    omega
  have hab : a.length + b.length = m := by
    rw [hwin, List.length_append] at hwl
    omega
  have hlen : (b ++ a).length = m := by
    rw [List.length_append]
    omega
  have hlenh : s.hist.length = m := by
    rw [hhist, liftQ_length, hlen]
  refine ⟨hlenh, q, ?_, ?_⟩
  · rw [hhist, liftQ_get?, hq]
    rfl
  · intro j hj
    have hjl : j < (b ++ a).length := by omega
    refine ⟨(b ++ a).get ⟨j, hjl⟩, ?_, ?_⟩
    · rw [hhist, liftQ_get?, List.get?_eq_get hjl]
      rfl
    · exact hqub _ (List.get_mem _ _ _)

/-! ### Claim theorems -/

/-- C1: for every capacity `m ≥ 1` and every sequence of `n > m` non-NaN
pushes into a monitor constructed with that capacity, after every push beyond
the `m`-th, `maxDiff()` equals the maximum of the last `m` pushed values.
Since `l` ranges over all rational sequences longer than `m`, applying the
theorem to each prefix of a run covers the state after every such push. -/
theorem claim1_sliding_window_max (m : Nat) (d : FVal) (l : List ℚ)
    (hm : 1 ≤ m) (hl : m < l.length) :
    ∃ s q, (Diffs.init m d).pushAll (liftQ l) = some s ∧
      s.maxDiff = some (some q) ∧ isMaxOf q (window l m) := by
  obtain ⟨s, hs, hinv⟩ := DInv_run m hm d l
  obtain ⟨hms, -, -, hfullc⟩ := hinv
  obtain ⟨q, hq, hmax⟩ := FullSt_maxDiff m l s hms (hfullc (le_of_lt hl)) (le_of_lt hl)
  exact ⟨s, q, hs, hq, hmax⟩

theorem claim1_witness :
    ∃ s q, (Diffs.init 2 (some 0)).pushAll (liftQ [5, 1, 4]) = some s ∧
      s.maxDiff = some (some q) ∧ isMaxOf q (window [5, 1, 4] 2) :=
  claim1_sliding_window_max 2 (some 0) [5, 1, 4] (by decide) (by decide)

/-- C2: for every capacity `m ≥ 1` and default `d`: a fresh monitor and each
of the first `m - 1` pushes leave `maxDiff()` returning `d`; after the
`m`-th push `maxDiff()` is the maximum of exactly those `m` pushed values. -/
theorem claim2_fill_behavior (m : Nat) (d : FVal) (hm : 1 ≤ m) :
    (Diffs.init m d).maxDiff = some d ∧
    (∀ l : List ℚ, l.length < m →
      ∃ s, (Diffs.init m d).pushAll (liftQ l) = some s ∧ s.maxDiff = some d) ∧
    (∀ l : List ℚ, l.length = m →
      ∃ s q, (Diffs.init m d).pushAll (liftQ l) = some s ∧
        s.maxDiff = some (some q) ∧ isMaxOf q l) := by
  refine ⟨?_, ?_, ?_⟩
  · exact (Diffs.init m d).maxDiff_fill (by simp [Diffs.init]; omega)
  · intro l hl
    obtain ⟨s, hs, hinv⟩ := DInv_run m hm d l
    obtain ⟨hms, hdv, hfillc, -⟩ := hinv
    obtain ⟨hhist, -, -, -⟩ := hfillc hl
    refine ⟨s, hs, ?_⟩
    have h1 : s.maxDiff = some s.defv :=
      s.maxDiff_fill (by rw [hhist, liftQ_length]; omega)
    rw [h1, hdv]
  · intro l hl
    obtain ⟨s, hs, hinv⟩ := DInv_run m hm d l
    obtain ⟨hms, -, -, hfullc⟩ := hinv
    obtain ⟨q, hq, hmax⟩ :=
      FullSt_maxDiff m l s hms (hfullc (le_of_eq hl.symm)) (le_of_eq hl.symm)
    refine ⟨s, q, hs, hq, ?_⟩
    have hwin0 : window l m = l := by
      unfold window
      rw [hl]
      simp
    rwa [hwin0] at hmax

theorem claim2_witness :
    (∃ s, (Diffs.init 3 (some 7)).pushAll (liftQ [5, 2]) = some s ∧
      s.maxDiff = some (some 7)) ∧
    (∃ s q, (Diffs.init 3 (some 7)).pushAll (liftQ [5, 2, 4]) = some s ∧
      s.maxDiff = some (some q) ∧ isMaxOf q [5, 2, 4]) :=
  ⟨(claim2_fill_behavior 3 (some 7) (by decide)).2.1 [5, 2] (by decide),
   (claim2_fill_behavior 3 (some 7) (by decide)).2.2 [5, 2, 4] (by decide)⟩

/-- C3: state invariants.  After any sequence of non-NaN pushes:
the history length never exceeds the capacity; while filling, the buffer is
exactly the pushed values and the max cursor is the earliest position of the
maximum (a later equal value does not move it); once full, every further push
overwrites exactly the slot at the write cursor (`_pos % m`), advances the
write cursor by one modulo the capacity, keeps the length equal to the
capacity, and leaves the max cursor on a true maximum of the full window. -/
theorem claim3_invariants (m : Nat) (d : FVal) (l : List ℚ) (hm : 1 ≤ m) :
    ∃ s, (Diffs.init m d).pushAll (liftQ l) = some s ∧
      s.hist.length ≤ m ∧
      (l.length < m → s.hist = liftQ l ∧ (l ≠ [] → leastMaxAt l s.maxpos)) ∧
      (m ≤ l.length →
        s.hist.length = m ∧
        ∀ x : ℚ, ∃ s', s.push (some x) = some s' ∧
          s'.hist = s.hist.set (s.pos % m) (some x) ∧
          s'.pos % m = (s.pos % m + 1) % m ∧
          s'.hist.length = m ∧
          ∃ q, s'.hist.get? s'.maxpos = some (some q) ∧
            ∀ j, j < m → ∃ p, s'.hist.get? j = some (some p) ∧ p ≤ q) := by
  obtain ⟨s, hs, hinv⟩ := DInv_run m hm d l
  have hinv' := hinv
  obtain ⟨hms, hdv, hfillc, hfullc⟩ := hinv'
  refine ⟨s, hs, ?_, ?_, ?_⟩
  · by_cases hfill : l.length < m
    · obtain ⟨hhist, -, -, -⟩ := hfillc hfill
      rw [hhist, liftQ_length]
      omega
    · have h1 := (FullSt_maxpoint m l s (hfullc (Nat.le_of_not_lt hfill))
        (Nat.le_of_not_lt hfill)).1
      omega
  · intro hfill
    obtain ⟨hhist, -, -, hlm⟩ := hfillc hfill
    exact ⟨hhist, hlm⟩
  · intro hge
    refine ⟨(FullSt_maxpoint m l s (hfullc hge) hge).1, ?_⟩
    intro x
    obtain ⟨s', hp, hinv2, hshape⟩ := DInv_push m hm d l x s hinv
    obtain ⟨hh, hpp⟩ := hshape hge
    obtain ⟨-, -, -, hfullc2⟩ := hinv2
    have hge2 : m ≤ (l ++ [x]).length := by
      rw [List.length_append]
      simp
      omega
    obtain ⟨hlen2, q, hq, hall⟩ := FullSt_maxpoint m (l ++ [x]) s' (hfullc2 hge2) hge2
    refine ⟨s', hp, hh, by rw [hpp], hlen2, q, hq, hall⟩

theorem claim3_witness :
    ∃ s, (Diffs.init 2 (some 0)).pushAll (liftQ [1, 2, 3]) = some s ∧
      s.hist.length ≤ 2 ∧
      (([1, 2, 3] : List ℚ).length < 2 → s.hist = liftQ [1, 2, 3] ∧
        (([1, 2, 3] : List ℚ) ≠ [] → leastMaxAt [1, 2, 3] s.maxpos)) ∧
      (2 ≤ ([1, 2, 3] : List ℚ).length →
        s.hist.length = 2 ∧
        ∀ x : ℚ, ∃ s', s.push (some x) = some s' ∧
          s'.hist = s.hist.set (s.pos % 2) (some x) ∧
          s'.pos % 2 = (s.pos % 2 + 1) % 2 ∧
          s'.hist.length = 2 ∧
          ∃ q, s'.hist.get? s'.maxpos = some (some q) ∧
            ∀ j, j < 2 → ∃ p, s'.hist.get? j = some (some p) ∧ p ≤ q) :=
  claim3_invariants 2 (some 0) [1, 2, 3] (by decide)

/-- C4 counterexample: constructing with capacity `0` raises nothing — the
constructor body has no validation and no throw, so construction succeeds
and a monitor object results. -/
theorem claim4_cex : Diffs.constructE 0 (some 0) = Except.ok (Diffs.init 0 (some 0)) := rfl

/-- C4 amended: construction never fails, for zero and negative capacities
included: the constructor performs no argument validation and always yields a
monitor (with empty history and the given default); a negative capacity wraps
around to a huge unsigned `_maxsize` (at least `2^63` for any representable
negative `long`). -/
theorem claim4_amended (ms : Int) (d : FVal) :
    Diffs.constructE ms d = Except.ok (Diffs.construct ms d) ∧
    (Diffs.construct ms d).hist = [] ∧
    (Diffs.construct ms d).defv = d ∧
    (-(2 ^ 63) ≤ ms → ms < 0 → 2 ^ 63 ≤ (Diffs.construct ms d).maxsize) := by
  refine ⟨rfl, rfl, rfl, ?_⟩
  intro hlow hneg
  unfold Diffs.construct Diffs.init
  dsimp only
  omega

theorem claim4_amended_witness :
    2 ^ 63 ≤ (Diffs.construct (-1) (some 0)).maxsize :=
  (claim4_amended (-1) (some 0)).2.2.2 (by decide) (by decide)

/-- C5: on a monitor constructed with capacity `m ≥ 1`, `push` and `maxDiff`
are total: every sequence of calls with arbitrary samples (NaN included)
succeeds, and no checked buffer access ever takes the out-of-bounds branch. -/
theorem claim5_total (m : Nat) (d : FVal) (l : List FVal) (hm : 1 ≤ m) :
    ∃ s, (Diffs.init m d).pushAll l = some s ∧ ∃ v, s.maxDiff = some v := by
  obtain ⟨s, hs, hinv⟩ := SInv_run m hm d l
  exact ⟨s, hs, SInv_maxDiff m hm s hinv⟩

theorem claim5_witness :
    ∃ s, (Diffs.init 1 none).pushAll [none, some 2] = some s ∧
      ∃ v, s.maxDiff = some v :=
  claim5_total 1 none [none, some 2] (by decide)

/-- C6 counterexample: capacity 3, default -1, pushes 5, 2, 9, 1, 1: the
sequence of `maxDiff()` values is not -1, -1, 9, 9, 2 as the spec's example
states. -/
theorem claim6_cex :
    (Diffs.init 3 (some (-1))).pushTrace (liftQ [5, 2, 9, 1, 1]) ≠
      some (liftQ [-1, -1, 9, 9, 2]) := by decide

/-- C6 amended: the trace is -1, -1, 9, 9, 9: after the fifth push the
window holds 9, 1, 1, whose maximum is 9 (as the spec's own parenthetical
recomputation of the example finds). -/
theorem claim6_amended :
    (Diffs.init 3 (some (-1))).pushTrace (liftQ [5, 2, 9, 1, 1]) =
      some (liftQ [-1, -1, 9, 9, 9]) := by decide

/-- C7 counterexample: capacity 2, default 0, pushes 4, 4, 4, 4: the trace
is not d, d, 4, 4 — the window is already full after the second push, so the
default is returned only once. -/
theorem claim7_cex :
    (Diffs.init 2 (some 0)).pushTrace (liftQ [4, 4, 4, 4]) ≠
      some [some 0, some 0, some 4, some 4] := by decide

/-- C7 amended: for every default `d`, with capacity 2 the pushes 4, 4, 4, 4
give the `maxDiff()` trace d, 4, 4, 4: the default is returned after the
first push only (`capacity - 1 = 1` pushes), and 4 from the second push on. -/
theorem claim7_amended (d : FVal) :
    (Diffs.init 2 d).pushTrace (liftQ [4, 4, 4, 4]) =
      some [d, some 4, some 4, some 4] := rfl

/-- C8 counterexample: capacity 2, pushing NaN and then 5: two samples have
been inserted, yet `maxDiff()` reports the NaN — so a NaN can be selected as
the reported maximum even when it is not the only value inserted so far. -/
theorem claim8_cex :
    ((Diffs.init 2 (some 0)).pushAll [none, some 5]).bind Diffs.maxDiff =
      some none := by decide

/-- C8 amended: comparisons treat NaN as never greater than any value
(`flt` is false whenever either side is NaN), and consequently a NaN sample
is reported as the maximum of a full window only when it occupies buffer
slot 0 — the max cursor can sit on a NaN only at position 0.  (It need not
be the only value inserted so far, as the counterexample shows.) -/
theorem claim8_amended (m : Nat) (d : FVal) (l : List FVal) (s : Diffs)
    (hm : 1 ≤ m) (hrun : (Diffs.init m d).pushAll l = some s)
    (hfull : s.maxsize ≤ s.hist.length) (hnan : s.maxDiff = some none) :
    s.maxpos = 0 ∧ s.hist.get? 0 = some none := by
  obtain ⟨s', hs', hinv⟩ := SInv_run m hm d l
  rw [hrun] at hs'
  injection hs' with hss
  subst hss
  obtain ⟨hms, hlen, -, -, -, hmplt, hnanInv⟩ := hinv
  have hno : ¬ s.hist.length < s.maxsize := by omega
  have hget : s.hist.get? s.maxpos = some none := by
    unfold Diffs.maxDiff Diffs.maxDiffM at hnan
    rw [if_neg hno] at hnan
    split at hnan
    · rename_i v hv
      simp at hnan
      rw [hv, hnan]
    · simp at hnan
  have h0 := hnanInv hget
  exact ⟨h0, by rw [← h0]; exact hget⟩

theorem claim8_amended_witness :
    (⟨2, some 0, [none, some 5], 2, 0⟩ : Diffs).maxpos = 0 ∧
    (⟨2, some 0, [none, some 5], 2, 0⟩ : Diffs).hist.get? 0 = some none :=
  claim8_amended 2 (some 0) [none, some 5] ⟨2, some 0, [none, some 5], 2, 0⟩
    (by decide) (by decide) (by decide) (by decide)

/-- C9: `maxDiff()` is a pure query: its body performs no assignment, so the
state it returns is the state it was called on (hence repeated calls without
an intervening push return the same value), and no `push` ever changes
`maxSize()` (the capacity) or `_def` (the default value). -/
theorem claim9_frame (s s' t : Diffs) (x v : FVal) :
    (s.maxDiffM = some (v, t) → t = s ∧ t.maxDiff = s.maxDiff) ∧
    (s.push x = some s' → s'.maxSize = s.maxSize ∧ s'.defv = s.defv) := by
  constructor
  · intro h
    have ht : t = s := by
      unfold Diffs.maxDiffM at h
      split at h
      · have h2 := Option.some.inj h
        exact (congrArg Prod.snd h2).symm
      · split at h
        · have h2 := Option.some.inj h
          exact (congrArg Prod.snd h2).symm
        · exact absurd h (by simp)
    exact ⟨ht, by rw [ht]⟩
  · intro h
    unfold Diffs.push at h
    dsimp only at h
    repeat' split at h
    all_goals
      first
        | exact Option.noConfusion h
        | (injection h with h'
           subst h'
           exact ⟨rfl, rfl⟩)

theorem claim9_witness :
    (Diffs.init 2 (some 7) = Diffs.init 2 (some 7) ∧
      (Diffs.init 2 (some 7)).maxDiff = (Diffs.init 2 (some 7)).maxDiff) ∧
    ((⟨2, some 7, [some 1], 1, 0⟩ : Diffs).maxSize = (Diffs.init 2 (some 7)).maxSize ∧
      (⟨2, some 7, [some 1], 1, 0⟩ : Diffs).defv = (Diffs.init 2 (some 7)).defv) :=
  ⟨(claim9_frame (Diffs.init 2 (some 7)) ⟨2, some 7, [some 1], 1, 0⟩
      (Diffs.init 2 (some 7)) (some 1) (some 7)).1 (by decide),
   (claim9_frame (Diffs.init 2 (some 7)) ⟨2, some 7, [some 1], 1, 0⟩
      (Diffs.init 2 (some 7)) (some 1) (some 7)).2 (by decide)⟩

/-- C10: constructing with capacity 0 completes without reporting any error,
and then the first `maxDiff()` dereferences `_maxpos` into the empty vector
(out of bounds) while the first `push` takes the full-window branch and
writes through `_pos` past the end (out of bounds): in the total embedding
both error branches are reached. -/
theorem claim10_capacity_zero (d x : FVal) :
    Diffs.constructE 0 d = Except.ok (Diffs.construct 0 d) ∧
    (Diffs.construct 0 d).maxDiff = none ∧
    (Diffs.construct 0 d).push x = none :=
  ⟨rfl, rfl, rfl⟩
